import Mathlib

set_option maxHeartbeats 2000000
set_option maxRecDepth 8000

/-! Shallow embedding of the 2D rasterization and region-analysis core of
`eve.py`, together with theorems checking the design document's claims
about it.  Images are modelled single-channel: a pixel is a rational
sample addressed by integer (row, column) coordinates; `QImage.pix` is a
total function, with the buffer extents recorded alongside.  Python's
float arithmetic is embedded as exact rational arithmetic, and
`math.sqrt` as `Real.sqrt` in the statements that need it. -/

/-- Python `int()` applied to a possibly fractional quantity: truncation
toward zero.  Used wherever `eve.py` writes `int (...)`. -/
def pyInt (q : ℚ) : ℤ := if 0 ≤ q then ⌊q⌋ else ⌈q⌉

/-- An EVE image buffer (single-channel view): `ny` rows, `nx` columns,
and the pixel contents. -/
structure QImage where
  ny : ℕ
  nx : ℕ
  pix : ℤ → ℤ → ℚ

/-- Coordinate (y, x) lies inside the buffer extents. -/
def QImage.inB (im : QImage) (y x : ℤ) : Prop :=
  0 ≤ y ∧ y < (im.ny : ℤ) ∧ 0 ≤ x ∧ x < (im.nx : ℤ)

instance (im : QImage) (y x : ℤ) : Decidable (im.inB y x) := by
  unfold QImage.inB; infer_instance

/-- Overwrite the pixel at (y, x): the effect of `im[y,x] = v` (or
`im[y,x,:] = v`) at a valid index. -/
def QImage.setPix (im : QImage) (y x : ℤ) (v : ℚ) : QImage :=
  { im with pix := fun y' x' => if y' = y ∧ x' = x then v else im.pix y' x' }

/-- `blend_pixel (im, y, x, v, opac)` from `eve.py`: composite the value
`v` into `im[y,x]` as `v*opac + (1-opac)*im[y,x]`; coordinates outside
the buffer extents are skipped silently (the guard
`y >= 0 and y < ny and x >= 0 and x < nx`). -/
def blend_pixel (im : QImage) (y x : ℤ) (v opac : ℚ) : QImage :=
  if 0 ≤ y ∧ y < (im.ny : ℤ) ∧ 0 ≤ x ∧ x < (im.nx : ℤ) then
    im.setPix y x (v * opac + (1 - opac) * im.pix y x)
  else im

/-- numpy assignment `im[y,x] = v` as used (unguarded) by `draw_circle`
and `draw_circle_fast`: an index in `[-n, n)` is accepted, a negative
one wrapping to the opposite end; any other index raises `IndexError`,
modelled as `Except.error ()`. -/
def npSet (im : QImage) (y x : ℤ) (v : ℚ) : Except Unit QImage :=
  if -(im.ny : ℤ) ≤ y ∧ y < (im.ny : ℤ) ∧ -(im.nx : ℤ) ≤ x ∧ x < (im.nx : ℤ) then
    .ok (im.setPix (if y < 0 then y + im.ny else y) (if x < 0 then x + im.nx else x) v)
  else .error ()

/-- The eight symmetric writes of one step of `draw_circle_fast`
(`eve.py` lines 933-940), in source order. -/
def circleOct (im : QImage) (yc xc x y : ℤ) (v : ℚ) : Except Unit QImage := do
  let im ← npSet im (yc + y) (xc + x) v
  let im ← npSet im (yc + y) (xc - x) v
  let im ← npSet im (yc - y) (xc + x) v
  let im ← npSet im (yc - y) (xc - x) v
  let im ← npSet im (yc + x) (xc + y) v
  let im ← npSet im (yc + x) (xc - y) v
  let im ← npSet im (yc - x) (xc + y) v
  let im ← npSet im (yc - x) (xc - y) v
  return im

/-- The `while x < y` loop of `draw_circle_fast`, with explicit fuel (the
loop runs at most `r+1` times since `x` increases and `y` never grows). -/
def drawCircleFastLoop (yc xc : ℤ) (v : ℚ) :
    ℕ → QImage → ℤ → ℤ → ℤ → Except Unit (QImage × ℤ × ℤ)
  | 0, im, x, y, _ => .ok (im, x, y)
  | fuel + 1, im, x, y, p =>
    if x < y then do
      let im ← circleOct im yc xc x y v
      if p < 0 then drawCircleFastLoop yc xc v fuel im (x + 1) y (p + 4 * x + 6)
      else drawCircleFastLoop yc xc v fuel im (x + 1) (y - 1) (p + 4 * (x - y) + 6)
    else .ok (im, x, y)

/-- `draw_circle_fast (im, yc, xc, r, v)` from `eve.py` (midpoint circle,
`fill=None`): the eight octant pixels are written with unguarded numpy
assignments, so an out-of-extent coordinate is an `IndexError`
(`Except.error`), not a silent skip. -/
def draw_circle_fast (im : QImage) (yc xc r : ℤ) (v : ℚ) : Except Unit QImage := do
  let (im, x, y) ← drawCircleFastLoop yc xc v (r.toNat + 2) im 0 r (3 - 2 * r)
  if x = y then circleOct im yc xc x y v
  else return im

/-- Does an `Except` computation end in an error? -/
def exceptErr {ε α : Type} : Except ε α → Bool
  | .error _ => true
  | .ok _ => false

/-- Pixel value of the result of a fallible drawing call (0 on error);
lets concrete fallible results be inspected pointwise. -/
def exceptPix (r : Except Unit QImage) (y x : ℤ) : ℚ :=
  match r with
  | .ok im => im.pix y x
  | .error _ => 0

/-- A 3x3 all-zero buffer used as a concrete input. -/
def imC1 : QImage := ⟨3, 3, fun _ _ => 0⟩

/-- A 5x5 all-zero buffer used as a concrete input. -/
def imC1b : QImage := ⟨5, 5, fun _ _ => 0⟩

/-- Endpoint normalization shared by the line drawers (`eve.py` lines
1058-1065): transpose the axes when the line is steep
(`abs(y1-y0) > abs(x1-x0)`), then order the endpoints so `x0 <= x1`.
Returns `(steep, (y0, x0), (y1, x1))` after both swaps. -/
def lineNorm (y0 x0 y1 x1 : ℤ) : Bool × (ℤ × ℤ) × (ℤ × ℤ) :=
  let steep : Bool := decide (|y1 - y0| > |x1 - x0|)
  let a := if steep then ((x0, y0), (x1, y1)) else ((y0, x0), (y1, x1))
  if a.1.2 > a.2.2 then (steep, a.2, a.1) else (steep, a)

/-- The pixel (row, column) written by the `draw_line_fast` loop at
loop position `(x, y)`: `im[x,y]` when steep, `im[y,x]` otherwise. -/
def pixOf (steep : Bool) (x y : ℤ) : ℤ × ℤ := if steep then (x, y) else (y, x)

/-- The `for x in xrange (x0, x1+1)` loop of `draw_line_fast` (`eve.py`
lines 1074-1082), returning the list of (row, column) pixels actually
written (out-of-extent positions are guarded and skipped).  The fuel is
the iteration count `x1 - x0 + 1`. -/
def lineFastLoop (ny nx : ℕ) (steep : Bool) (ystep : ℤ) (de : ℚ) :
    ℕ → ℤ → ℤ → ℚ → List (ℤ × ℤ)
  | 0, _, _, _ => []
  | fuel + 1, x, y, e =>
    let rest :=
      if e + de ≥ 1/2 then
        lineFastLoop ny nx steep ystep de fuel (x + 1) (y + ystep) (e + de - 1)
      else
        lineFastLoop ny nx steep ystep de fuel (x + 1) y (e + de)
    if steep then
      if 0 ≤ x ∧ x < (ny : ℤ) ∧ 0 ≤ y ∧ y < (nx : ℤ) then (x, y) :: rest else rest
    else
      if 0 ≤ x ∧ x < (nx : ℤ) ∧ 0 ≤ y ∧ y < (ny : ℤ) then (y, x) :: rest else rest

/-- The set (as a list, in drawing order) of pixels written by
`draw_line_fast (im, y0, x0, y1, x1, v)` on a `ny` x `nx` buffer.  The
slope accumulator `e` and the slope `de = dy/dx` are exact rationals
(the source uses floats); `de` is the sentinel `1e30` for a vertical
line. -/
def draw_line_fast_pixels (ny nx : ℕ) (y0 x0 y1 x1 : ℤ) : List (ℤ × ℤ) :=
  let n := lineNorm y0 x0 y1 x1
  let steep := n.1
  let y0 := n.2.1.1
  let x0 := n.2.1.2
  let y1 := n.2.2.1
  let x1 := n.2.2.2
  let dx : ℚ := ((x1 - x0 : ℤ) : ℚ)
  let dy : ℚ := |((y1 - y0 : ℤ) : ℚ)|
  let de : ℚ := if dx = 0 then 10 ^ 30 else dy / dx
  let ystep : ℤ := if y0 < y1 then 1 else -1
  lineFastLoop ny nx steep ystep de ((x1 - x0).toNat + 1) x0 y0 0

/-- `draw_line_fast` from `eve.py` (Bresenham): write `v` to every
visited in-extent pixel. -/
def draw_line_fast (im : QImage) (y0 x0 y1 x1 : ℤ) (v : ℚ) : QImage :=
  (draw_line_fast_pixels im.ny im.nx y0 x0 y1 x1).foldl
    (fun a p => a.setPix p.1 p.2 v) im

/-- One neighbour examination inside `fill_outline`'s frontier sweep
(`eve.py` lines 1539-1543): if the neighbour `(t, s)` is in bounds and
its value is within `threshold` of the seed sum `vc`, set it to `v` and
append it to the new frontier. -/
def neighStep (vc v th : ℚ) (st : QImage × List (ℤ × ℤ)) (ts : ℤ × ℤ) :
    QImage × List (ℤ × ℤ) :=
  if 0 ≤ ts.2 ∧ ts.2 < (st.1.nx : ℤ) ∧ 0 ≤ ts.1 ∧ ts.1 < (st.1.ny : ℤ) ∧
      |st.1.pix ts.1 ts.2 - vc| < th then
    (st.1.setPix ts.1 ts.2 v, st.2 ++ [(ts.1, ts.2)])
  else st

/-- Process one frontier pixel of `fill_outline`: its four neighbours in
source order `(y, x+1), (y, x-1), (y+1, x), (y-1, x)`. -/
def sweepPixel (vc v th : ℚ) (st : QImage × List (ℤ × ℤ)) (yx : ℤ × ℤ) :
    QImage × List (ℤ × ℤ) :=
  [(yx.1, yx.2 + 1), (yx.1, yx.2 - 1), (yx.1 + 1, yx.2), (yx.1 - 1, yx.2)].foldl
    (neighStep vc v th) st

/-- One iteration of `fill_outline`'s `while edge:` loop body: examine
every current frontier pixel, building the next frontier from scratch. -/
def fillSweep (vc v th : ℚ) (st : QImage × List (ℤ × ℤ)) : QImage × List (ℤ × ℤ) :=
  st.2.foldl (sweepPixel vc v th) (st.1, [])

/-- The guarded loop step: stop on an empty frontier, else sweep. -/
def fillStep (vc v th : ℚ) (st : QImage × List (ℤ × ℤ)) : QImage × List (ℤ × ℤ) :=
  if st.2 = [] then st else fillSweep vc v th st

/-- Iterated sweeps of `fill_outline`'s loop. -/
def fillIter (vc v th : ℚ) : ℕ → QImage × List (ℤ × ℤ) → QImage × List (ℤ × ℤ)
  | 0, st => st
  | n + 1, st => fillIter vc v th n (fillStep vc v th st)

/-- `fill_outline (im, y, x, v, threshold)` from `eve.py` (single-channel
view, so the seed's channel sum is just its value): an out-of-bounds
seed is a no-op, as is a fill value within `threshold` of the seed value
`vc`; otherwise the seed is set to `v` and frontiers are swept until
empty.  `ny*nx + 1` sweeps always reach the empty frontier (proved in
the termination theorem), so that is the fuel used here. -/
def fill_outline (im : QImage) (y x : ℤ) (v th : ℚ) : QImage :=
  if ¬ (0 ≤ x ∧ x < (im.nx : ℤ) ∧ 0 ≤ y ∧ y < (im.ny : ℤ)) then im
  else
    let vc := im.pix y x
    if |vc - v| < th then im
    else (fillIter vc v th (im.ny * im.nx + 1) (im.setPix y x v, [(y, x)])).1

/-- Number of in-extent pixels whose value differs from `v`; the
decreasing measure of the flood fill. -/
def notVCount (im : QImage) (v : ℚ) : ℕ :=
  (((Finset.Icc (0 : ℤ) ((im.ny : ℤ) - 1)) ×ˢ (Finset.Icc (0 : ℤ) ((im.nx : ℤ) - 1))).filter
    (fun p => im.pix p.1 p.2 ≠ v)).card

/-- The peak test of `find_peaks` (`eve.py` lines 1580-1588): the value
at (y, x) strictly exceeds all eight neighbours and the threshold. -/
def isPeakAt (im : QImage) (th : ℚ) (y x : ℤ) : Prop :=
  im.pix y x > im.pix (y-1) (x-1) ∧ im.pix y x > im.pix (y-1) x ∧
  im.pix y x > im.pix (y-1) (x+1) ∧ im.pix y x > im.pix y (x-1) ∧
  im.pix y x > im.pix y (x+1) ∧ im.pix y x > im.pix (y+1) (x-1) ∧
  im.pix y x > im.pix (y+1) x ∧ im.pix y x > im.pix (y+1) (x+1) ∧
  im.pix y x > th

instance (im : QImage) (th : ℚ) (y x : ℤ) : Decidable (isPeakAt im th y x) := by
  unfold isPeakAt; infer_instance

/-- Raster-order collection of `find_peaks`'s `(value, y, x)` triples:
`y` from 1 to `ny-2`, `x` from 1 to `nx-2`. -/
def peakScan (im : QImage) (th : ℚ) : List (ℚ × ℕ × ℕ) :=
  (List.range' 1 (im.ny - 2)).flatMap (fun (y : ℕ) =>
    (List.range' 1 (im.nx - 2)).filterMap (fun (x : ℕ) =>
      if isPeakAt im th (y : ℤ) (x : ℤ) then some (im.pix (y : ℤ) (x : ℤ), y, x)
      else none))

/-- Python's `peaks.sort (reverse=True)` comparison on `[value, y, x]`
list triples: descending lexicographic order (value first, then row,
then column, each descending). -/
def peakGe (a b : ℚ × ℕ × ℕ) : Prop :=
  b.1 < a.1 ∨ (b.1 = a.1 ∧ (b.2.1 < a.2.1 ∨ (b.2.1 = a.2.1 ∧ b.2.2 ≤ a.2.2)))

instance : DecidableRel peakGe := fun a b => by unfold peakGe; infer_instance

/-- `find_peaks (im, threshold)` from `eve.py`: collect the interior
strict local maxima above `threshold` and sort the `[value, y, x]`
triples with `reverse=True` (duplicate triples cannot occur, so the
stable reverse sort is exactly a sort by descending lexicographic
order). -/
def find_peaks (im : QImage) (th : ℚ) : List (ℚ × ℕ × ℕ) :=
  (peakScan im th).insertionSort peakGe

/-- `high_peaks (peaks, factor)` from `eve.py`.  Its first statement
reads `peaks[0]`, so an empty list raises `IndexError` (modelled as
`none`); otherwise the `for`/`break` loop returns the longest prefix
whose heights are not below `peaks[0][0] * factor`. -/
def high_peaks (peaks : List (ℚ × ℕ × ℕ)) (factor : ℚ) :
    Option (List (ℚ × ℕ × ℕ)) :=
  match peaks with
  | [] => none
  | p :: ps =>
    let threshold := p.1 * factor
    some ((p :: ps).takeWhile (fun t => !decide (t.1 < threshold)))

/-- The per-sample body of `extract`'s general path (`eve.py` lines
1455-1490) restricted to the `nearest` interpolator (`interp == 1`); the
guards assigning the fill value `val` are shared by all modes.  Note
`ylo = int (ypos)` truncates, is then wrapped by `(ylo + ny) % ny`, and
the final read is `im[int(ylo+0.5), int(xlo+0.5)]`, in which `ylo` and
`xlo` are already integers. -/
def sampleNearest (im : QImage) (wrap : Bool) (val : ℚ) (ypos xpos : ℚ) : ℚ :=
  if (ypos < 0 ∨ ypos ≥ (im.ny : ℚ) ∨ xpos < 0 ∨ xpos ≥ (im.nx : ℚ)) ∧ ¬ wrap then
    val
  else
    let ylo : ℤ := (pyInt ypos + im.ny) % (im.ny : ℤ)
    let yhi := ylo + 1
    if yhi ≥ (im.ny : ℤ) ∧ ¬ wrap then val
    else
      let xlo : ℤ := (pyInt xpos + im.nx) % (im.nx : ℤ)
      let xhi := xlo + 1
      if xhi ≥ (im.nx : ℤ) ∧ ¬ wrap then val
      else im.pix (pyInt ((ylo : ℚ) + 1/2)) (pyInt ((xlo : ℚ) + 1/2))

/-- `extract`'s general path with `interpolator='nearest'`: an
`ry` x `rx` output sampled around centre `(yc, xc)`.  The rotation
factors `cosfac = cos(-angle)` and `sinfac = sin(-angle)` are passed
explicitly (for the claims they are the exact values 1 and 0 of
`angle = 0`).  `disty = ry / 2` and `distx = rx / 2` are Python 2
integer divisions; the source's per-pixel accumulation of the sample
position is exact in ℚ and written here in closed form:
`ypos = yst + y*ystep*cosfac - x*ystep*sinfac` and
`xpos = xst + y*xstep*sinfac + x*xstep*cosfac`. -/
def extractNearest (im : QImage) (ry rx : ℕ) (yc xc ystep xstep cosfac sinfac : ℚ)
    (wrap : Bool) (val : ℚ) : QImage :=
  let disty : ℚ := ((ry / 2 : ℕ) : ℚ)
  let distx : ℚ := ((rx / 2 : ℕ) : ℚ)
  let yst := yc + distx * xstep * sinfac - disty * ystep * cosfac
  let xst := xc - distx * xstep * cosfac - disty * ystep * sinfac
  { ny := ry, nx := rx,
    pix := fun y x =>
      if 0 ≤ y ∧ y < (ry : ℤ) ∧ 0 ≤ x ∧ x < (rx : ℤ) then
        sampleNearest im wrap val
          (yst + y * (ystep * cosfac) - x * (ystep * sinfac))
          (xst + y * (xstep * sinfac) + x * (xstep * cosfac))
      else 0 }

/-- Endpoint normalization of the anti-aliased `draw_line` (`eve.py`
lines 981-988); same steep/order swaps as `lineNorm` but on the raw ℚ
endpoints (no `int()` casts). -/
def lineNormQ (y0 x0 y1 x1 : ℚ) : Bool × (ℚ × ℚ) × (ℚ × ℚ) :=
  let steep : Bool := decide (|y1 - y0| > |x1 - x0|)
  let a := if steep then ((x0, y0), (x1, y1)) else ((y0, x0), (y1, x1))
  if a.1.2 > a.2.2 then (steep, a.2, a.1) else (steep, a)

/-- Parameters feeding `draw_line`'s main loop (`eve.py` lines 989-1012):
`(steep, de, xpxl1, xpxl2, yend)` where `de = dy/dx` (sentinel `1e30`
for a vertical line), `xpxl1 = int(x0 + 0.5)`, `xpxl2 = int(x1 + 0.5)`
and `yend = y0 + de * (xpxl1 - x0)` is the first endpoint's
y-intersection. -/
def lineParams (y0 x0 y1 x1 : ℚ) : Bool × ℚ × ℤ × ℤ × ℚ :=
  let n := lineNormQ y0 x0 y1 x1
  let b0 := n.2.1
  let b1 := n.2.2
  let dx := b1.2 - b0.2
  let de := if dx = 0 then 10 ^ 30 else (b1.1 - b0.1) / dx
  let xpxl1 := pyInt (b0.2 + 1/2)
  let yend := b0.1 + de * ((xpxl1 : ℚ) - b0.2)
  let xpxl2 := pyInt (b1.2 + 1/2)
  (n.1, de, xpxl1, xpxl2, yend)

/-- The `(x, intery)` pairs visited by `draw_line`'s main loop
(`eve.py` lines 1022-1033), with `intery += de` at each step. -/
def interyList (de : ℚ) : ℕ → ℤ → ℚ → List (ℤ × ℚ)
  | 0, _, _ => []
  | n + 1, x, intery => (x, intery) :: interyList de n (x + 1) (intery + de)

/-- The main-loop trace of `draw_line (im, y0, x0, y1, x1, v)`: `x`
ranges over `xrange (xpxl1+1, xpxl2)` and `intery` starts at
`yend + de`. -/
def drawLineMain (y0 x0 y1 x1 : ℚ) : List (ℤ × ℚ) :=
  let p := lineParams y0 x0 y1 x1
  interyList p.2.1 (p.2.2.2.1 - (p.2.2.1 + 1)).toNat (p.2.2.1 + 1) (p.2.2.2.2 + p.2.1)

/-- The pair of `blend_pixel` calls issued by `draw_line`'s main loop at
a trace element `(x, intery)` (`eve.py` lines 1023-1032): the pixels at
rows `int(intery)` and `int(intery)+1` in column `x` (transposed when
steep), with opacities `math.sqrt (1 - frac)` and `math.sqrt (frac)`
where `frac = intery - int(intery)`.  Each entry is (row, column,
opacity). -/
noncomputable def mainBlendPair (steep : Bool) (ev : ℤ × ℚ) :
    (ℤ × ℤ × ℝ) × (ℤ × ℤ × ℝ) :=
  let fl := pyInt ev.2
  let frac : ℚ := ev.2 - fl
  if steep then
    ((ev.1, fl, Real.sqrt (1 - frac)), (ev.1, fl + 1, Real.sqrt frac))
  else
    ((fl, ev.1, Real.sqrt (1 - frac)), (fl + 1, ev.1, Real.sqrt frac))

/-- Pixel access `im[y,x,0]` on a row-major list image (0 outside, never
reached by the guarded loops). -/
def pixL (im : List (List ℚ)) (y x : ℕ) : ℚ := (im.getD y []).getD x 0

/-- Equivalence-table lookup `equiv[i]`; an out-of-range index reads as
its own entry (the algorithm never indexes out of range). -/
def eget (t : List ℕ) (i : ℕ) : ℕ := t.getD i i

/-- The equivalence recording of `label_regions_slow` for one merge
(`eve.py` lines 2389-2393): with `lv = matches[0]` the smallest matching
label, each further match `v` either is repointed to `lv`
(`equiv[v] = lv` when `equiv[v] > lv`) or donates its smaller entry
(`equiv[lv] = equiv[v]` when `lv > equiv[v]`). -/
def mergeStep (t : List ℕ) (lv : ℕ) (rest : List ℕ) : List ℕ :=
  rest.foldl (fun t v =>
    if lv < eget t v then t.set v lv
    else if eget t v < lv then t.set lv (eget t v)
    else t) t

/-- Labelling of the first image row (`eve.py` lines 2331-2342): a new
label whenever the value changes from the left neighbour.  Returns
(row labels, lastlabel, equiv). -/
def firstRow (im : List (List ℚ)) (nx : ℕ) : List ℕ × ℕ × List ℕ :=
  (List.range' 1 (nx - 1)).foldl (fun (st : List ℕ × ℕ × List ℕ) x =>
    if pixL im 0 x ≠ pixL im 0 (x - 1) then
      (st.1 ++ [st.2.1 + 1], st.2.1 + 1, st.2.2 ++ [st.2.1 + 1])
    else (st.1 ++ [st.2.1], st.2.1, st.2.2)) ([0], 0, [0])

/-- Labelling of the first image column (`eve.py` lines 2344-2353),
continuing from the first row's label state.  Returns (column labels,
lastlabel, equiv). -/
def firstCol (im : List (List ℚ)) (ny : ℕ) (last : ℕ) (equiv : List ℕ) :
    List ℕ × ℕ × List ℕ :=
  (List.range' 1 (ny - 1)).foldl (fun (st : List ℕ × ℕ × List ℕ) y =>
    if pixL im y 0 = pixL im (y - 1) 0 then
      (st.1 ++ [st.1.getD (y - 1) 0], st.2.1, st.2.2)
    else (st.1 ++ [st.2.1 + 1], st.2.1 + 1, st.2.2 ++ [st.2.1 + 1])) ([0], last, equiv)

/-- The label decision of one raster cell given the sorted matching
labels (`eve.py` lines 2377-2393): no match opens a new region; else the
smallest match is taken and the rest are merged into the table. -/
def labelFromMatches (last : ℕ) (equiv : List ℕ) : List ℕ → ℕ × ℕ × List ℕ
  | [] => (last + 1, last + 1, equiv ++ [last + 1])
  | lv :: rest => (lv, last, mergeStep equiv lv rest)

/-- One cell of the main raster pass (`eve.py` lines 2358-2394): gather
the causal neighbours (left, up; for `con8` also upper-left and, except
in the last-column cut-off `x2 >= nx - 1`, upper-right), keep the labels
of those sharing the cell's value, sort them, and decide via
`labelFromMatches`.  Returns (assigned label, lastlabel, equiv). -/
def labelCell (con8 : Bool) (im : List (List ℚ)) (nx y x : ℕ)
    (prevRow currow : List ℕ) (last : ℕ) (equiv : List ℕ) : ℕ × ℕ × List ℕ :=
  let val := pixL im y x
  let nbrs : List (ℚ × ℕ) :=
    [(pixL im y (x - 1), currow.getD (x - 1) 0),
     (pixL im (y - 1) x, prevRow.getD x 0)] ++
    (if con8 then
      [(pixL im (y - 1) (x - 1), prevRow.getD (x - 1) 0)] ++
      (if (x + 1 : ℤ) ≥ (nx : ℤ) - 1 then []
       else [(pixL im (y - 1) (x + 1), prevRow.getD (x + 1) 0)])
     else [])
  let ms :=
    ((nbrs.filter (fun p => decide (p.1 = val))).map (fun p => p.2)).insertionSort
      (· ≤ ·)
  labelFromMatches last equiv ms

/-- One row of the main raster pass: `x` from 1 to `nx-1`, starting from
the first-column label of this row. -/
def labelRow (con8 : Bool) (im : List (List ℚ)) (nx y : ℕ) (prevRow : List ℕ)
    (col0y : ℕ) (last : ℕ) (equiv : List ℕ) : List ℕ × ℕ × List ℕ :=
  (List.range' 1 (nx - 1)).foldl (fun (st : List ℕ × ℕ × List ℕ) x =>
    let c := labelCell con8 im nx y x prevRow st.1 st.2.1 st.2.2
    (st.1 ++ [c.1], c.2.1, c.2.2)) ([col0y], last, equiv)

/-- The full raster pass of `label_regions_slow`: first row, first
column, then the remaining cells row by row.  Returns (provisional
label rows, lastlabel, equiv). -/
def labelPass (im : List (List ℚ)) (ny nx : ℕ) (con8 : Bool) :
    List (List ℕ) × ℕ × List ℕ :=
  let fr := firstRow im nx
  let fc := firstCol im ny fr.2.1 fr.2.2
  (List.range' 1 (ny - 1)).foldl (fun (st : List (List ℕ) × ℕ × List ℕ) y =>
    let r := labelRow con8 im nx y (st.1.getD (y - 1) []) (fc.1.getD y 0)
      st.2.1 st.2.2
    (st.1 ++ [r.1], r.2.1, r.2.2)) ([fr.1], fc.2.1, fc.2.2)

/-- Root chase `while equiv[v] != v: v = equiv[v]` with explicit fuel. -/
def chase (t : List ℕ) : ℕ → ℕ → ℕ
  | 0, v => v
  | f + 1, v => if eget t v = v then v else chase t f (eget t v)

/-- The compaction pass of `label_regions_slow` (`eve.py` lines
2397-2408): scan the equivalence table; a root (an entry pointing to
itself) receives the next dense label, any other label receives the
dense label already assigned to its root.  Returns (remap table, number
of roots seen). -/
def buildRemap (t : List ℕ) : List ℕ × ℕ :=
  (List.range t.length).foldl (fun (st : List ℕ × ℕ) i =>
    if eget t i = i then (st.1 ++ [st.2], st.2 + 1)
    else (st.1 ++ [st.1.getD (chase t i i) 0], st.2)) ([], 0)

/-- `label_regions_slow (im, con8)` (single-channel view): raster pass,
equivalence compaction, relabelling, and the source's return value
`lab, max(lab)`.  (In Python 2 the expression `max (lab)` applied to a
2-D numpy array would itself raise `ValueError` whenever the buffer has
at least two rows and columns; the evidently intended maximum label
`lab.max()` is modelled.) -/
def label_regions_slow (im : List (List ℚ)) (ny nx : ℕ) (con8 : Bool) :
    List (List ℕ) × ℕ :=
  let p := labelPass im ny nx con8
  let remap := (buildRemap p.2.2).1
  let lab := p.1.map (fun row => row.map (fun l => remap.getD l 0))
  (lab, (lab.flatMap id).foldl max 0)

/-- The equivalence-table invariant: every entry points at a label no
larger than its own index. -/
def equivInv (t : List ℕ) : Prop := ∀ i, eget t i ≤ i

/-- Count of canonical roots among labels `0..i-1`. -/
def rootCount (t : List ℕ) (i : ℕ) : ℕ :=
  ((List.range i).filter (fun j => decide (eget t j = j))).length

/-- Concrete 4x4 two-region input for `label_regions_slow`: the left two
columns hold value 0, the right two value 7. -/
def imC3 : List (List ℚ) :=
  [[0, 0, 7, 7], [0, 0, 7, 7], [0, 0, 7, 7], [0, 0, 7, 7]]

/-- Concrete 10x10 buffer holding a uniform 3x3 rectangle of value 50
(rows and columns 2..4) on a zero background. -/
def imC2 : QImage :=
  ⟨10, 10, fun y x => if 2 ≤ y ∧ y ≤ 4 ∧ 2 ≤ x ∧ x ≤ 4 then 50 else 0⟩

/-- Concrete 5x5 buffer with two isolated equal peaks of value 100 at
(1,1) and (3,3). -/
def imC4 : QImage :=
  ⟨5, 5, fun y x => if (y = 1 ∧ x = 1) ∨ (y = 3 ∧ x = 3) then 100 else 0⟩

/-- Concrete 4x4 buffer with pairwise distinct pixel values `10*y + x`. -/
def imC6 : QImage :=
  ⟨4, 4, fun y x => if 0 ≤ y ∧ y < 4 ∧ 0 ≤ x ∧ x < 4 then 10 * (y : ℚ) + (x : ℚ) else 0⟩

/-! ## Theorems -/

/-- C10: `high_peaks` applied to an empty peak list fails with an error
(`IndexError` from the unconditional read of `peaks[0]`, modelled as
`none`) for every factor, rather than returning an empty list; a
non-empty list always yields a result. -/
theorem c10_high_peaks_empty_is_error :
    (∀ factor : ℚ, high_peaks [] factor = none) ∧
    (∀ (p : ℚ × ℕ × ℕ) (ps : List (ℚ × ℕ × ℕ)) (factor : ℚ),
      (high_peaks (p :: ps) factor).isSome = true) := by
  exact ⟨fun _ => rfl, fun _ _ _ => rfl⟩

/-- Every pixel emitted by the `draw_line_fast` loop lies inside the
buffer extents (each write is guarded). -/
theorem lineFastLoop_mem_bounds (ny nx : ℕ) (steep : Bool) (ystep : ℤ) (de : ℚ) :
    ∀ (fuel : ℕ) (x y : ℤ) (e : ℚ) (p : ℤ × ℤ),
      p ∈ lineFastLoop ny nx steep ystep de fuel x y e →
      0 ≤ p.1 ∧ p.1 < (ny : ℤ) ∧ 0 ≤ p.2 ∧ p.2 < (nx : ℤ) := by
  intro fuel
  induction fuel with
  | zero => intro x y e p hp; simp [lineFastLoop] at hp
  | succ n ih =>
    intro x y e p hp
    rw [lineFastLoop] at hp
    rcases hs : steep with _ | _ <;> subst hs <;> simp only [Bool.false_eq_true,
      if_true, if_false] at hp <;> split_ifs at hp with hg <;>
      first
      | exact ih _ _ _ _ hp
      | (rcases List.mem_cons.1 hp with hq | hq
         · rw [hq]
           first
           | exact ⟨hg.2.2.1, hg.2.2.2, hg.1, hg.2.1⟩
           | exact ⟨hg.1, hg.2.1, hg.2.2.1, hg.2.2.2⟩
         · exact ih _ _ _ _ hq)

/-- A fold of guarded in-bounds writes leaves any pixel not written
unchanged. -/
theorem foldl_setPix_untouched (v : ℚ) :
    ∀ (l : List (ℤ × ℤ)) (im : QImage) (y x : ℤ),
      (∀ p ∈ l, ¬ (p.1 = y ∧ p.2 = x)) →
      (l.foldl (fun a p => a.setPix p.1 p.2 v) im).pix y x = im.pix y x := by
  intro l
  induction l with
  | nil => intro im y x _; rfl
  | cons p t ih =>
    intro im y x h
    rw [List.foldl_cons, ih _ y x (fun q hq => h q (List.mem_cons_of_mem _ hq))]
    have hp := h p (List.mem_cons_self _ _)
    unfold QImage.setPix
    simp only []
    rw [if_neg]
    intro hc
    exact hp ⟨hc.1.symm, hc.2.symm⟩

/-- Pixels produced by `draw_line_fast_pixels` are in bounds. -/
theorem draw_line_fast_pixels_mem_bounds (ny nx : ℕ) (y0 x0 y1 x1 : ℤ)
    (p : ℤ × ℤ) (hp : p ∈ draw_line_fast_pixels ny nx y0 x0 y1 x1) :
    0 ≤ p.1 ∧ p.1 < (ny : ℤ) ∧ 0 ≤ p.2 ∧ p.2 < (nx : ℤ) := by
  unfold draw_line_fast_pixels at hp
  exact lineFastLoop_mem_bounds _ _ _ _ _ _ _ _ _ _ hp

/-- C1 (amended): out-of-extent coordinates are silently skipped (no
write, no error) by `blend_pixel` — and hence by `draw_line`, whose
writes all go through `blend_pixel` — and by `draw_line_fast`, whose
loop writes are individually guarded; `draw_circle` and
`draw_circle_fast`, by contrast, write their octant pixels with
unguarded numpy assignments (see the counterexample). -/
theorem c1_oob_skip_amended :
    (∀ (im : QImage) (y x : ℤ) (v opac : ℚ), ¬ im.inB y x →
      blend_pixel im y x v opac = im) ∧
    (∀ (im : QImage) (y0 x0 y1 x1 : ℤ) (v : ℚ) (y x : ℤ), ¬ im.inB y x →
      (draw_line_fast im y0 x0 y1 x1 v).pix y x = im.pix y x) := by
  constructor
  · intro im y x v opac h
    unfold blend_pixel
    rw [if_neg]
    exact fun hc => h hc
  · intro im y0 x0 y1 x1 v y x h
    unfold draw_line_fast
    apply foldl_setPix_untouched
    intro p hp hc
    have hb := draw_line_fast_pixels_mem_bounds im.ny im.nx y0 x0 y1 x1 p hp
    exact h ⟨hc.1 ▸ hb.1, hc.1 ▸ hb.2.1, hc.2 ▸ hb.2.2.1, hc.2 ▸ hb.2.2.2⟩

/-- C1 (witness): an out-of-extent blend and an out-of-extent probe of a
finished `draw_line_fast` call, both inert on a concrete 3x3 buffer. -/
theorem c1_oob_skip_witness :
    blend_pixel imC1 5 5 1 1 = imC1 ∧
    (draw_line_fast imC1 0 0 2 2 9).pix 5 5 = imC1.pix 5 5 :=
  ⟨c1_oob_skip_amended.1 imC1 5 5 1 1 (by decide),
   c1_oob_skip_amended.2 imC1 0 0 2 2 9 5 5 (by decide)⟩

/-- C1 (counterexample): `draw_circle_fast` does not skip out-of-extent
coordinates.  On a 3x3 buffer a radius-2 circle centred at (1,1) raises
`IndexError` (the first octant write indexes row 3); and on a 5x5 buffer
a radius-1 circle centred at (0,0) completes but wraps the negative
index -1 to row 4, writing a pixel far from the circle. -/
theorem c1_circle_oob_counterexample :
    exceptErr (draw_circle_fast imC1 1 1 2 5) = true ∧
    exceptPix (draw_circle_fast imC1b 0 0 1 5) 4 0 = 5 :=
  ⟨by decide, by decide⟩

/-- Setting an in-extent pixel whose value differs from `v` to `v`
decreases the fill measure by exactly one. -/
theorem notVCount_setPix (im : QImage) (v : ℚ) (t s : ℤ)
    (h1 : 0 ≤ t) (h2 : t < (im.ny : ℤ)) (h3 : 0 ≤ s) (h4 : s < (im.nx : ℤ))
    (hv : im.pix t s ≠ v) :
    notVCount (im.setPix t s v) v + 1 = notVCount im v := by
  unfold notVCount
  have hdim : (im.setPix t s v).ny = im.ny ∧ (im.setPix t s v).nx = im.nx := ⟨rfl, rfl⟩
  have hmem : (t, s) ∈ (((Finset.Icc (0 : ℤ) ((im.ny : ℤ) - 1)) ×ˢ
      (Finset.Icc (0 : ℤ) ((im.nx : ℤ) - 1))).filter
      (fun p => im.pix p.1 p.2 ≠ v)) := by
    simp only [Finset.mem_filter, Finset.mem_product, Finset.mem_Icc]
    exact ⟨⟨⟨h1, by omega⟩, ⟨h3, by omega⟩⟩, hv⟩
  have key : (((Finset.Icc (0 : ℤ) ((im.ny : ℤ) - 1)) ×ˢ
      (Finset.Icc (0 : ℤ) ((im.nx : ℤ) - 1))).filter
      (fun p => (im.setPix t s v).pix p.1 p.2 ≠ v)) =
      (((Finset.Icc (0 : ℤ) ((im.ny : ℤ) - 1)) ×ˢ
      (Finset.Icc (0 : ℤ) ((im.nx : ℤ) - 1))).filter
      (fun p => im.pix p.1 p.2 ≠ v)).erase (t, s) := by
    ext p
    simp only [Finset.mem_filter, Finset.mem_erase, Finset.mem_product, Finset.mem_Icc,
      QImage.setPix]
    by_cases hp : p = (t, s)
    · subst hp
      simp
    · have hcond : ¬ (p.1 = t ∧ p.2 = s) := by
        intro hc
        exact hp (Prod.ext hc.1 hc.2)
      rw [if_neg hcond]
      tauto
  rw [show ((im.setPix t s v).ny : ℕ) = im.ny from rfl,
    show ((im.setPix t s v).nx : ℕ) = im.nx from rfl, key,
    Finset.card_erase_of_mem hmem]
  have hpos : 1 ≤ (((Finset.Icc (0 : ℤ) ((im.ny : ℤ) - 1)) ×ˢ
      (Finset.Icc (0 : ℤ) ((im.nx : ℤ) - 1))).filter
      (fun p => im.pix p.1 p.2 ≠ v)).card :=
    Finset.card_pos.2 ⟨(t, s), hmem⟩
  omega

/-- One neighbour examination preserves (measure + frontier length),
assuming the entry guard `|vc - v| >= threshold` held (a pixel set to
`v` can then never pass the similarity test again). -/
theorem neighStep_measure (vc v th : ℚ) (h : ¬ |vc - v| < th)
    (st : QImage × List (ℤ × ℤ)) (ts : ℤ × ℤ) :
    notVCount (neighStep vc v th st ts).1 v + (neighStep vc v th st ts).2.length =
      notVCount st.1 v + st.2.length := by
  unfold neighStep
  split_ifs with hc
  · have hv : st.1.pix ts.1 ts.2 ≠ v := by
      intro he
      apply h
      have := hc.2.2.2.2
      rw [he, abs_sub_comm] at this
      exact this
    have hk := notVCount_setPix st.1 v ts.1 ts.2 hc.2.2.1 hc.2.2.2.1 hc.1 hc.2.1 hv
    simp only [List.length_append, List.length_cons, List.length_nil]
    omega
  · rfl

/-- The four-neighbour examination of one frontier pixel preserves
(measure + frontier length). -/
theorem sweepPixel_measure (vc v th : ℚ) (h : ¬ |vc - v| < th)
    (st : QImage × List (ℤ × ℤ)) (yx : ℤ × ℤ) :
    notVCount (sweepPixel vc v th st yx).1 v + (sweepPixel vc v th st yx).2.length =
      notVCount st.1 v + st.2.length := by
  unfold sweepPixel
  simp only [List.foldl_cons, List.foldl_nil]
  rw [neighStep_measure vc v th h, neighStep_measure vc v th h,
    neighStep_measure vc v th h, neighStep_measure vc v th h]

/-- A whole frontier sweep: the new frontier's length is exactly the
measure decrease. -/
theorem fillSweep_measure (vc v th : ℚ) (h : ¬ |vc - v| < th)
    (st : QImage × List (ℤ × ℤ)) :
    notVCount (fillSweep vc v th st).1 v + (fillSweep vc v th st).2.length =
      notVCount st.1 v := by
  unfold fillSweep
  have gen : ∀ (l : List (ℤ × ℤ)) (s : QImage × List (ℤ × ℤ)),
      notVCount (l.foldl (sweepPixel vc v th) s).1 v +
        (l.foldl (sweepPixel vc v th) s).2.length =
      notVCount s.1 v + s.2.length := by
    intro l
    induction l with
    | nil => intro s; rfl
    | cons a t ih =>
      intro s
      rw [List.foldl_cons, ih, sweepPixel_measure vc v th h]
  have := gen st.2 (st.1, [])
  simpa using this

/-- Sweeping an empty frontier is inert. -/
theorem fillIter_nil (vc v th : ℚ) :
    ∀ (n : ℕ) (im : QImage), fillIter vc v th n (im, []) = (im, []) := by
  intro n
  induction n with
  | zero => intro im; rfl
  | succ m ih =>
    intro im
    show fillIter vc v th m (fillStep vc v th (im, [])) = (im, [])
    rw [show fillStep vc v th (im, []) = (im, []) from if_pos rfl]
    exact ih im

/-- Termination of the flood-fill loop: starting from any state whose
measure is at most `m`, after `m + 1` guarded sweeps the frontier is
empty. -/
theorem fill_frontier_empties (vc v th : ℚ) (h : ¬ |vc - v| < th) :
    ∀ (m : ℕ) (st : QImage × List (ℤ × ℤ)), notVCount st.1 v ≤ m →
      (fillIter vc v th (m + 1) st).2 = [] := by
  intro m
  induction m with
  | zero =>
    intro st h0
    show (fillStep vc v th st).2 = []
    unfold fillStep
    split_ifs with he
    · exact he
    · have := fillSweep_measure vc v th h st
      have hlen : (fillSweep vc v th st).2.length = 0 := by omega
      exact List.length_eq_zero.1 hlen
  | succ m ih =>
    intro st hm
    show (fillIter vc v th (m + 1) (fillStep vc v th st)).2 = []
    unfold fillStep
    split_ifs with he
    · have hst : st = (st.1, []) := Prod.ext rfl he
      rw [hst, fillIter_nil]
    · have hms := fillSweep_measure vc v th h st
      by_cases hl : (fillSweep vc v th st).2 = []
      · have hs2 : fillSweep vc v th st = ((fillSweep vc v th st).1, []) :=
          Prod.ext rfl hl
        rw [hs2, fillIter_nil]
      · have hlen : 1 ≤ (fillSweep vc v th st).2.length :=
          Nat.one_le_iff_ne_zero.2 (fun hz => hl (List.length_eq_zero.1 hz))
        exact ih _ (by omega)

/-- The fill measure is bounded by the pixel count. -/
theorem notVCount_le (im : QImage) (v : ℚ) : notVCount im v ≤ im.ny * im.nx := by
  unfold notVCount
  calc (((Finset.Icc (0 : ℤ) ((im.ny : ℤ) - 1)) ×ˢ
      (Finset.Icc (0 : ℤ) ((im.nx : ℤ) - 1))).filter
      (fun p => im.pix p.1 p.2 ≠ v)).card
      ≤ ((Finset.Icc (0 : ℤ) ((im.ny : ℤ) - 1)) ×ˢ
        (Finset.Icc (0 : ℤ) ((im.nx : ℤ) - 1))).card := Finset.card_filter_le _ _
    _ = im.ny * im.nx := by
        rw [Finset.card_product, Int.card_Icc, Int.card_Icc]
        simp

/-- C9: on a single-channel buffer with an in-bounds seed, `fill_outline`
always terminates: either the initial guard `|seed - v| < threshold`
returns with the buffer untouched, or (since every filled pixel becomes
`v` and `v` fails the similarity test against the seed value, so no
pixel is frontiered twice) the frontier is empty after at most
`ny*nx + 1` sweeps — the fuel `fill_outline` runs with. -/
theorem c9_fill_outline_terminates :
    ∀ (im : QImage) (y x : ℤ) (v th : ℚ), im.inB y x →
      (|im.pix y x - v| < th → fill_outline im y x v th = im) ∧
      (¬ |im.pix y x - v| < th →
        (fillIter (im.pix y x) v th (im.ny * im.nx + 1)
          (im.setPix y x v, [(y, x)])).2 = []) := by
  intro im y x v th hb
  constructor
  · intro hlt
    unfold fill_outline
    rw [if_neg (not_not_intro ⟨hb.2.2.1, hb.2.2.2, hb.1, hb.2.1⟩)]
    simp only []
    rw [if_pos hlt]
  · intro hge
    exact fill_frontier_empties (im.pix y x) v th hge (im.ny * im.nx) _
      (le_trans (notVCount_le _ _) (le_refl _))

/-- C9 (witness): filling the rectangle buffer `imC2` from seed (3,3)
with value 255, threshold 100: the guard does not fire and the frontier
empties within the fuel. -/
theorem c9_fill_outline_terminates_witness :
    imC2.inB 3 3 ∧
    (fillIter (imC2.pix 3 3) 255 100 101 (imC2.setPix 3 3 255, [(3, 3)])).2 = [] :=
  ⟨by decide,
   (c9_fill_outline_terminates imC2 3 3 255 100 (by decide)).2
     (by rw [show imC2.pix 3 3 = 50 from by decide]; norm_num)⟩

/-- C2 (helper): with `threshold = 0` the similarity test
`|value - vc| < 0` never holds, so a neighbour examination is inert. -/
theorem neighStep_zero (vc v : ℚ) (st : QImage × List (ℤ × ℤ)) (ts : ℤ × ℤ) :
    neighStep vc v 0 st ts = st := by
  unfold neighStep
  rw [if_neg]
  intro hc
  exact absurd hc.2.2.2.2 (not_lt.2 (abs_nonneg _))

/-- C2 (helper): with `threshold = 0` a whole sweep empties the frontier
without touching the buffer. -/
theorem fillSweep_zero (vc v : ℚ) (st : QImage × List (ℤ × ℤ)) :
    fillSweep vc v 0 st = (st.1, []) := by
  unfold fillSweep
  have hsp : ∀ (s : QImage × List (ℤ × ℤ)) (yx : ℤ × ℤ),
      sweepPixel vc v 0 s yx = s := by
    intro s yx
    unfold sweepPixel
    simp only [List.foldl_cons, List.foldl_nil, neighStep_zero]
  have gen : ∀ (l : List (ℤ × ℤ)) (s : QImage × List (ℤ × ℤ)),
      l.foldl (sweepPixel vc v 0) s = s := by
    intro l
    induction l with
    | nil => intro s; rfl
    | cons a t ih => intro s; rw [List.foldl_cons, hsp]; exact ih s
  exact gen st.2 (st.1, [])

/-- C2 (helper): `fill_outline` with `threshold = 0` sets exactly the
seed pixel to `v` and leaves every other pixel unchanged. -/
theorem fill_outline_zero (im : QImage) (y x : ℤ) (v : ℚ) (hb : im.inB y x) :
    ∀ y' x', (fill_outline im y x v 0).pix y' x' =
      if y' = y ∧ x' = x then v else im.pix y' x' := by
  intro y' x'
  unfold fill_outline
  rw [if_neg (not_not_intro ⟨hb.2.2.1, hb.2.2.2, hb.1, hb.2.1⟩)]
  simp only []
  rw [if_neg (not_lt.2 (abs_nonneg _))]
  have h1 : fillStep (im.pix y x) v 0 (im.setPix y x v, [(y, x)]) =
      (im.setPix y x v, []) := by
    unfold fillStep
    rw [if_neg (by simp)]
    exact fillSweep_zero _ _ _
  show (fillIter (im.pix y x) v 0 (im.ny * im.nx + 1) (im.setPix y x v, [(y, x)])).1.pix y' x' = _
  rw [show im.ny * im.nx + 1 = (im.ny * im.nx) + 1 from rfl]
  have : fillIter (im.pix y x) v 0 (im.ny * im.nx + 1) (im.setPix y x v, [(y, x)]) =
      (im.setPix y x v, []) := by
    show fillIter (im.pix y x) v 0 (im.ny * im.nx)
      (fillStep (im.pix y x) v 0 (im.setPix y x v, [(y, x)])) = _
    rw [h1, fillIter_nil]
  rw [this]
  rfl

/-- C2 (amended): on any buffer, for any in-bounds seed and fill value,
`fill_outline` with `threshold = 0` sets exactly the seed pixel to the
fill value and leaves every other pixel (in particular the rest of any
uniform region around the seed) unchanged — the strict similarity test
`|sum - seedSum| < 0` never admits a neighbour. -/
theorem c2_fill_threshold0_amended :
    ∀ (im : QImage) (y x : ℤ) (v : ℚ), im.inB y x →
      ∀ y' x', (fill_outline im y x v 0).pix y' x' =
        if y' = y ∧ x' = x then v else im.pix y' x' :=
  fun im y x v hb => fill_outline_zero im y x v hb

/-- C2 (witness): the seed itself is set on the concrete rectangle
buffer. -/
theorem c2_fill_threshold0_witness :
    imC2.inB 3 3 ∧
    (fill_outline imC2 3 3 255 0).pix 3 3 =
      if (3 : ℤ) = 3 ∧ (3 : ℤ) = 3 then (255 : ℚ) else imC2.pix 3 3 :=
  ⟨by decide, c2_fill_threshold0_amended imC2 3 3 255 (by decide) 3 3⟩

/-- C2 (counterexample): on the 10x10 buffer with a uniform 3x3
rectangle of value 50 around the seed (3,3), `fill_outline` with
`threshold = 0` leaves the rectangle pixel (2,2) at 50 instead of
filling it with 255 as the claim asserts. -/
theorem c2_fill_rect_counterexample :
    imC2.pix 2 2 = 50 ∧ (fill_outline imC2 3 3 255 0).pix 2 2 = 50 ∧
      (50 : ℚ) ≠ 255 := by
  refine ⟨by decide, ?_, by norm_num⟩
  rw [fill_outline_zero imC2 3 3 255 (by decide) 2 2]
  rw [if_neg (by decide)]
  decide

instance : IsTotal (ℚ × ℕ × ℕ) peakGe := by
  constructor
  intro a b
  unfold peakGe
  rcases lt_trichotomy b.1 a.1 with h | h | h
  · exact Or.inl (Or.inl h)
  · rcases lt_trichotomy b.2.1 a.2.1 with h2 | h2 | h2
    · exact Or.inl (Or.inr ⟨h, Or.inl h2⟩)
    · rcases le_total b.2.2 a.2.2 with h3 | h3
      · exact Or.inl (Or.inr ⟨h, Or.inr ⟨h2, h3⟩⟩)
      · exact Or.inr (Or.inr ⟨h.symm, Or.inr ⟨h2.symm, h3⟩⟩)
    · exact Or.inr (Or.inr ⟨h.symm, Or.inl h2⟩)
  · exact Or.inr (Or.inl h)

instance : IsTrans (ℚ × ℕ × ℕ) peakGe := by
  constructor
  intro a b c hab hbc
  unfold peakGe at hab hbc ⊢
  rcases hab with h1 | ⟨h1, h1'⟩ <;> rcases hbc with h2 | ⟨h2, h2'⟩
  · exact Or.inl (lt_trans h2 h1)
  · exact Or.inl (h2 ▸ h1)
  · exact Or.inl (lt_of_lt_of_le h2 (le_of_eq h1))
  · refine Or.inr ⟨h2.trans h1, ?_⟩
    rcases h1' with g1 | ⟨g1, g1'⟩ <;> rcases h2' with g2 | ⟨g2, g2'⟩
    · exact Or.inl (lt_trans g2 g1)
    · exact Or.inl (g2 ▸ g1)
    · exact Or.inl (lt_of_lt_of_le g2 (le_of_eq g1))
    · exact Or.inr ⟨g2.trans g1, le_trans g2' g1'⟩

/-- Membership in the raw peak scan is exactly the interior strict
local-maximum property. -/
theorem peakScan_mem (im : QImage) (th : ℚ) (t : ℚ × ℕ × ℕ) :
    t ∈ peakScan im th ↔
      (1 ≤ t.2.1 ∧ t.2.1 + 2 ≤ im.ny ∧ 1 ≤ t.2.2 ∧ t.2.2 + 2 ≤ im.nx ∧
       isPeakAt im th t.2.1 t.2.2 ∧ t.1 = im.pix t.2.1 t.2.2) := by
  unfold peakScan
  simp only [List.mem_flatMap, List.mem_filterMap, List.mem_range'_1]
  constructor
  · rintro ⟨y, hy, x, hx, hsome⟩
    split_ifs at hsome with hpk
    cases hsome
    dsimp only
    exact ⟨by omega, by omega, by omega, by omega, hpk, rfl⟩
  · rintro ⟨h1, h2, h3, h4, hpk, hval⟩
    refine ⟨t.2.1, by omega, t.2.2, by omega, ?_⟩
    rw [if_pos hpk, ← hval]

/-- C4 (amended): `find_peaks` returns exactly the triples of interior
pixels strictly exceeding their 8 neighbours and the threshold, sorted
by value descending with ties broken by *descending* row and then
*descending* column (Python's `sort (reverse=True)` reverses the whole
lexicographic comparison, ascending tie-break included). -/
theorem c4_find_peaks_amended :
    ∀ (im : QImage) (th : ℚ),
      (∀ t : ℚ × ℕ × ℕ, t ∈ find_peaks im th ↔
        (1 ≤ t.2.1 ∧ t.2.1 + 2 ≤ im.ny ∧ 1 ≤ t.2.2 ∧ t.2.2 + 2 ≤ im.nx ∧
         isPeakAt im th t.2.1 t.2.2 ∧ t.1 = im.pix t.2.1 t.2.2)) ∧
      List.Sorted peakGe (find_peaks im th) := by
  intro im th
  constructor
  · intro t
    unfold find_peaks
    rw [List.Perm.mem_iff (List.perm_insertionSort peakGe _)]
    exact peakScan_mem im th t
  · exact List.sorted_insertionSort peakGe _

/-- C4 (witness): the peak (100, 3, 3) of the concrete buffer is indeed
returned by `find_peaks`. -/
theorem c4_find_peaks_witness : (100, 3, 3) ∈ find_peaks imC4 50 :=
  ((c4_find_peaks_amended imC4 50).1 (100, 3, 3)).2 (by decide)

/-- C4 (counterexample): two equal peaks of value 100 at (1,1) and (3,3)
in a 5x5 buffer with threshold 50: `find_peaks` lists (3,3) before
(1,1) — ties are broken by descending, not ascending, position. -/
theorem c4_find_peaks_counterexample :
    find_peaks imC4 50 = [(100, 3, 3), (100, 1, 1)] ∧
    find_peaks imC4 50 ≠ [(100, 1, 1), (100, 3, 3)] :=
  ⟨by decide, by decide⟩

/-- Case analysis of the endpoint normalization of `draw_line_fast`. -/
theorem lineNorm_spec (y0 x0 y1 x1 : ℤ) :
    (|y1 - y0| ≤ |x1 - x0| ∧ x0 ≤ x1 ∧
      lineNorm y0 x0 y1 x1 = (false, (y0, x0), (y1, x1))) ∨
    (|y1 - y0| ≤ |x1 - x0| ∧ x1 < x0 ∧
      lineNorm y0 x0 y1 x1 = (false, (y1, x1), (y0, x0))) ∨
    (|x1 - x0| < |y1 - y0| ∧ y0 ≤ y1 ∧
      lineNorm y0 x0 y1 x1 = (true, (x0, y0), (x1, y1))) ∨
    (|x1 - x0| < |y1 - y0| ∧ y1 < y0 ∧
      lineNorm y0 x0 y1 x1 = (true, (x1, y1), (x0, y0))) := by
  unfold lineNorm
  by_cases hs : |x1 - x0| < |y1 - y0|
  · rw [show decide (|y1 - y0| > |x1 - x0|) = true from decide_eq_true hs]
    simp only [if_true]
    split_ifs with hx
    · have hx' : y1 < y0 := hx
      right; right; right
      exact ⟨hs, hx', rfl⟩
    · have hx' : ¬ y1 < y0 := hx
      right; right; left
      exact ⟨hs, by omega, rfl⟩
  · rw [show decide (|y1 - y0| > |x1 - x0|) = false from decide_eq_false (by omega)]
    simp only [Bool.false_eq_true, if_false]
    split_ifs with hx
    · have hx' : x1 < x0 := hx
      right; left
      exact ⟨by omega, hx', rfl⟩
    · have hx' : ¬ x1 < x0 := hx
      left
      exact ⟨by omega, by omega, rfl⟩

/-- Swapping the endpoints leaves the normalized parameters unchanged
(when the two normalized x's tie, the endpoints coincide). -/
theorem lineNorm_swap (y0 x0 y1 x1 : ℤ) :
    lineNorm y0 x0 y1 x1 = lineNorm y1 x1 y0 x0 := by
  have a1 : 0 ≤ |y1 - y0| := abs_nonneg _
  have a2 : 0 ≤ |x1 - x0| := abs_nonneg _
  rcases lineNorm_spec y0 x0 y1 x1 with ⟨h1, h2, h3⟩ | ⟨h1, h2, h3⟩ | ⟨h1, h2, h3⟩ |
    ⟨h1, h2, h3⟩ <;>
    rcases lineNorm_spec y1 x1 y0 x0 with ⟨g1, g2, g3⟩ | ⟨g1, g2, g3⟩ | ⟨g1, g2, g3⟩ |
      ⟨g1, g2, g3⟩ <;>
    rw [h3, g3] <;>
    rw [abs_sub_comm y0 y1, abs_sub_comm x0 x1] at g1 <;>
    first
    | rfl
    | (exfalso; omega)
    | (exfalso
       have hy0 : y0 = y1 := by omega
       have hz : |y1 - y0| = 0 := by rw [show y1 - y0 = 0 from by omega]; exact abs_zero
       omega)
    | (have hx0 : x0 = x1 := by omega
       have hz : |x1 - x0| = 0 := by rw [show x1 - x0 = 0 from by omega]; exact abs_zero
       have hy : y1 - y0 = 0 := abs_eq_zero.1 (by omega)
       have hy0 : y0 = y1 := by omega
       simp [hx0, hy0])

/-- The first loop iteration of `draw_line_fast` writes the starting
pixel (when it is inside the buffer). -/
theorem lineFastLoop_head_mem (ny nx : ℕ) (steep : Bool) (ystep : ℤ) (de : ℚ)
    (n : ℕ) (x y : ℤ) (e : ℚ)
    (hb : 0 ≤ (pixOf steep x y).1 ∧ (pixOf steep x y).1 < (ny : ℤ) ∧
      0 ≤ (pixOf steep x y).2 ∧ (pixOf steep x y).2 < (nx : ℤ)) :
    pixOf steep x y ∈ lineFastLoop ny nx steep ystep de (n + 1) x y e := by
  rw [lineFastLoop]
  cases steep
  · simp only [pixOf, Bool.false_eq_true, if_false] at hb ⊢
    rw [if_pos ⟨hb.2.2.1, hb.2.2.2, hb.1, hb.2.1⟩]
    exact List.mem_cons_self _ _
  · simp only [pixOf, if_true] at hb ⊢
    rw [if_pos ⟨hb.1, hb.2.1, hb.2.2.1, hb.2.2.2⟩]
    exact List.mem_cons_self _ _

/-- The last loop iteration of `draw_line_fast` writes the pixel
`(x + n, y + ystep * r)`, where `r` is the unique integer keeping the
error accumulator in `[-1/2, 1/2)`: the error starts there, gains `de`
each step and loses 1 at each minor step. -/
theorem lineFastLoop_last_mem (ny nx : ℕ) (steep : Bool) (ystep : ℤ) (de : ℚ)
    (hde0 : 0 ≤ de) (hde1 : de ≤ 1) :
    ∀ (n : ℕ) (x y : ℤ) (e : ℚ), -(1/2) ≤ e → e < 1/2 →
    ∀ r : ℤ, 0 ≤ r → -(1/2) ≤ e + n * de - r → e + n * de - r < 1/2 →
    (0 ≤ (pixOf steep (x + n) (y + ystep * r)).1 ∧
     (pixOf steep (x + n) (y + ystep * r)).1 < (ny : ℤ) ∧
     0 ≤ (pixOf steep (x + n) (y + ystep * r)).2 ∧
     (pixOf steep (x + n) (y + ystep * r)).2 < (nx : ℤ)) →
    pixOf steep (x + n) (y + ystep * r) ∈
      lineFastLoop ny nx steep ystep de (n + 1) x y e := by
  intro n
  induction n with
  | zero =>
    intro x y e he1 he2 r hr0 hr1 hr2 hb
    have hrq : (r : ℚ) < 1 := by push_cast at hr1; linarith
    have hrz : r < 1 := by exact_mod_cast hrq
    have hr' : r = 0 := by omega
    subst hr'
    have hc1 : x + ((0 : ℕ) : ℤ) = x := by norm_num
    have hc2 : y + ystep * 0 = y := by ring
    rw [hc1, hc2] at hb ⊢
    exact lineFastLoop_head_mem ny nx steep ystep de 0 x y e hb
  | succ n ih =>
    intro x y e he1 he2 r hr0 hr1 hr2 hb
    push_cast at hr1 hr2
    by_cases hcase : e + de ≥ 1/2
    · have hr1' : 1 ≤ r := by
        by_contra hlt
        have hr00 : r = 0 := by omega
        subst hr00
        have hnd : 0 ≤ (n : ℚ) * de := mul_nonneg (by positivity) hde0
        push_cast at hr2
        linarith
      have hcoordx : (x + 1) + (n : ℤ) = x + ((n : ℕ) + 1 : ℕ) := by push_cast; ring
      have hcoordy : (y + ystep) + ystep * (r - 1) = y + ystep * r := by ring
      have happ := ih (x + 1) (y + ystep) (e + de - 1) (by linarith) (by linarith)
        (r - 1) (by omega) (by push_cast; linarith) (by push_cast; linarith) ?_
      · rw [lineFastLoop]
        simp only [if_pos hcase]
        rw [hcoordx, hcoordy] at happ
        cases steep <;> split_ifs <;>
          first
          | exact List.mem_cons_of_mem _ happ
          | exact happ
      · rw [hcoordx, hcoordy]
        exact hb
    · have hcoordx : (x + 1) + (n : ℤ) = x + ((n : ℕ) + 1 : ℕ) := by push_cast; ring
      have happ := ih (x + 1) y (e + de) (by linarith) (by linarith)
        r hr0 (by linarith) (by linarith) ?_
      · rw [lineFastLoop]
        simp only [if_neg hcase]
        rw [hcoordx] at happ
        cases steep <;> split_ifs <;>
          first
          | exact List.mem_cons_of_mem _ happ
          | exact happ
      · rw [hcoordx]
        exact hb

/-- Both normalized endpoints are written by the `draw_line_fast` loop:
the first at the first iteration, the second at the last (the error
accumulator stays in `[-1/2, 1/2)`, so the minor coordinate advances
exactly `|yb - ya|` times over the run). -/
theorem normalized_run_mem (ny nx : ℕ) (steep : Bool) (ya xa yb xb : ℤ)
    (hord : xa ≤ xb) (hslope : |yb - ya| ≤ xb - xa)
    (hb0 : 0 ≤ (pixOf steep xa ya).1 ∧ (pixOf steep xa ya).1 < (ny : ℤ) ∧
      0 ≤ (pixOf steep xa ya).2 ∧ (pixOf steep xa ya).2 < (nx : ℤ))
    (hb1 : 0 ≤ (pixOf steep xb yb).1 ∧ (pixOf steep xb yb).1 < (ny : ℤ) ∧
      0 ≤ (pixOf steep xb yb).2 ∧ (pixOf steep xb yb).2 < (nx : ℤ)) :
    pixOf steep xa ya ∈ lineFastLoop ny nx steep (if ya < yb then 1 else -1)
      (if ((xb - xa : ℤ) : ℚ) = 0 then 10 ^ 30
       else |((yb - ya : ℤ) : ℚ)| / ((xb - xa : ℤ) : ℚ))
      ((xb - xa).toNat + 1) xa ya 0 ∧
    pixOf steep xb yb ∈ lineFastLoop ny nx steep (if ya < yb then 1 else -1)
      (if ((xb - xa : ℤ) : ℚ) = 0 then 10 ^ 30
       else |((yb - ya : ℤ) : ℚ)| / ((xb - xa : ℤ) : ℚ))
      ((xb - xa).toNat + 1) xa ya 0 := by
  constructor
  · exact lineFastLoop_head_mem _ _ _ _ _ _ _ _ _ hb0
  · by_cases hdx : xb - xa = 0
    · have hyz : |yb - ya| = 0 := by
        have := abs_nonneg (yb - ya)
        omega
      have hyy : yb = ya := by
        have := abs_eq_zero.1 hyz
        omega
      have hxx : xb = xa := by omega
      subst hyy
      subst hxx
      exact lineFastLoop_head_mem _ _ _ _ _ _ _ _ _ hb0
    · have hdxq : ((xb - xa : ℤ) : ℚ) ≠ 0 := by exact_mod_cast hdx
      rw [if_neg hdxq]
      have hdxpos : (0 : ℚ) < ((xb - xa : ℤ) : ℚ) := by
        have h : (0 : ℤ) < xb - xa := by omega
        exact_mod_cast h
      have hdy0 : (0 : ℚ) ≤ |((yb - ya : ℤ) : ℚ)| := abs_nonneg _
      have hcastabs : |((yb - ya : ℤ) : ℚ)| = ((|yb - ya| : ℤ) : ℚ) := by
        rw [Int.cast_abs]
      have hdyle : |((yb - ya : ℤ) : ℚ)| ≤ ((xb - xa : ℤ) : ℚ) := by
        rw [hcastabs]
        exact_mod_cast hslope
      have hde0 : 0 ≤ |((yb - ya : ℤ) : ℚ)| / ((xb - xa : ℤ) : ℚ) :=
        div_nonneg hdy0 hdxpos.le
      have hde1 : |((yb - ya : ℤ) : ℚ)| / ((xb - xa : ℤ) : ℚ) ≤ 1 :=
        (div_le_one hdxpos).2 hdyle
      have hn : (((xb - xa).toNat : ℕ) : ℚ) = ((xb - xa : ℤ) : ℚ) := by
        have h1 : (((xb - xa).toNat : ℤ) : ℚ) = ((xb - xa : ℤ) : ℚ) := by
          rw [Int.toNat_of_nonneg (by omega : (0 : ℤ) ≤ xb - xa)]
        rw [← h1]
        push_cast
        ring
      have hsum : (0 : ℚ) + ((xb - xa).toNat : ℚ) *
          (|((yb - ya : ℤ) : ℚ)| / ((xb - xa : ℤ) : ℚ)) - ((|yb - ya| : ℤ) : ℚ) = 0 := by
        rw [hn, ← hcastabs, zero_add, mul_comm, div_mul_cancel₀ _ hdxq, sub_self]
      have hcoordx : xa + (((xb - xa).toNat : ℕ) : ℤ) = xb := by omega
      have hcoordy : ya + (if ya < yb then 1 else -1) * |yb - ya| = yb := by
        by_cases hy : ya < yb
        · rw [if_pos hy, one_mul, abs_of_nonneg (by omega : (0 : ℤ) ≤ yb - ya)]
          ring
        · rw [if_neg hy, abs_of_nonpos (by omega : yb - ya ≤ 0)]
          ring
      have hlast := lineFastLoop_last_mem ny nx steep (if ya < yb then 1 else -1)
        (|((yb - ya : ℤ) : ℚ)| / ((xb - xa : ℤ) : ℚ)) hde0 hde1 ((xb - xa).toNat)
        xa ya 0 (by norm_num) (by norm_num) |yb - ya| (abs_nonneg _)
        (by rw [hsum]; norm_num) (by rw [hsum]; norm_num)
        (by rw [hcoordx, hcoordy]; exact hb1)
      rw [hcoordx, hcoordy] at hlast
      exact hlast

/-- C8: `draw_line_fast` is reversal-symmetric — swapping the endpoints
yields the identical list of written pixels (normalization maps both
argument orders to the same parameters) — and when both endpoints lie
inside the buffer they are both written. -/
theorem c8_draw_line_fast_endpoints_symmetric :
    ∀ (ny nx : ℕ) (Y0 X0 Y1 X1 : ℤ),
      draw_line_fast_pixels ny nx Y0 X0 Y1 X1 =
        draw_line_fast_pixels ny nx Y1 X1 Y0 X0 ∧
      ((0 ≤ Y0 ∧ Y0 < (ny : ℤ) ∧ 0 ≤ X0 ∧ X0 < (nx : ℤ)) →
       (0 ≤ Y1 ∧ Y1 < (ny : ℤ) ∧ 0 ≤ X1 ∧ X1 < (nx : ℤ)) →
       (Y0, X0) ∈ draw_line_fast_pixels ny nx Y0 X0 Y1 X1 ∧
       (Y1, X1) ∈ draw_line_fast_pixels ny nx Y0 X0 Y1 X1) := by
  intro ny nx Y0 X0 Y1 X1
  constructor
  · unfold draw_line_fast_pixels
    rw [lineNorm_swap]
  · intro h0 h1
    rcases lineNorm_spec Y0 X0 Y1 X1 with ⟨hA, hB, hC⟩ | ⟨hA, hB, hC⟩ |
      ⟨hA, hB, hC⟩ | ⟨hA, hB, hC⟩ <;>
      unfold draw_line_fast_pixels <;> rw [hC] <;> dsimp only
    · have hslope : |Y1 - Y0| ≤ X1 - X0 := by
        have := abs_of_nonneg (by omega : (0 : ℤ) ≤ X1 - X0)
        omega
      have hrun := normalized_run_mem ny nx false Y0 X0 Y1 X1 hB hslope h0 h1
      exact ⟨hrun.1, hrun.2⟩
    · have hslope : |Y0 - Y1| ≤ X0 - X1 := by
        have e1 : |Y0 - Y1| = |Y1 - Y0| := abs_sub_comm _ _
        have e2 : |X0 - X1| = |X1 - X0| := abs_of_nonneg (by omega : (0 : ℤ) ≤ X0 - X1) ▸
          abs_sub_comm X0 X1
        have := abs_of_nonneg (by omega : (0 : ℤ) ≤ X0 - X1)
        have e3 : |X1 - X0| = X0 - X1 := by rw [abs_sub_comm]; exact this
        omega
      have hrun := normalized_run_mem ny nx false Y1 X1 Y0 X0 (by omega) hslope h1 h0
      exact ⟨hrun.2, hrun.1⟩
    · have hslope : |X1 - X0| ≤ Y1 - Y0 := by
        have := abs_of_nonneg (by omega : (0 : ℤ) ≤ Y1 - Y0)
        omega
      have hrun := normalized_run_mem ny nx true X0 Y0 X1 Y1 hB hslope h0 h1
      exact ⟨hrun.1, hrun.2⟩
    · have hslope : |X0 - X1| ≤ Y0 - Y1 := by
        have e3 : |Y1 - Y0| = Y0 - Y1 := by
          rw [abs_sub_comm]
          exact abs_of_nonneg (by omega : (0 : ℤ) ≤ Y0 - Y1)
        have e1 : |X0 - X1| = |X1 - X0| := abs_sub_comm _ _
        omega
      have hrun := normalized_run_mem ny nx true X1 Y1 X0 Y0 (by omega) hslope h1 h0
      exact ⟨hrun.2, hrun.1⟩

/-- C8 (witness): a concrete in-bounds line on a 5x5 buffer contains
both endpoints, and its pixel list is endpoint-order independent. -/
theorem c8_draw_line_fast_witness :
    draw_line_fast_pixels 5 5 0 0 1 3 = draw_line_fast_pixels 5 5 1 3 0 0 ∧
    (0, 0) ∈ draw_line_fast_pixels 5 5 0 0 1 3 ∧
    (1, 3) ∈ draw_line_fast_pixels 5 5 0 0 1 3 :=
  ⟨(c8_draw_line_fast_endpoints_symmetric 5 5 0 0 1 3).1,
   (c8_draw_line_fast_endpoints_symmetric 5 5 0 0 1 3).2
     (by norm_num) (by norm_num)⟩

/-- C6: evaluation of `extract`'s general path with `nearest`
interpolation at `ry = rx = 2`, centre `(7/4, 7/4)`, `step = (1,1)`,
`angle = 0`.  The output pixel (0,0) has sample position `(3/4, 3/4)`;
the integer coordinates closest to it are `(1, 1)` (`round (3/4) = 1`),
yet the code reads the truncated corner `(0, 0)`: `int(ylo+0.5)` rounds
a value that `ylo = int(ypos)` has already truncated. -/
theorem c6_extract_nearest_truncates :
    (extractNearest imC6 2 2 (7/4) (7/4) 1 1 1 0 false 0).pix 0 0 = imC6.pix 0 0 ∧
    imC6.pix 0 0 = 0 ∧ imC6.pix 1 1 = 11 ∧ round ((3 : ℚ)/4) = 1 ∧
    imC6.pix 0 0 ≠ imC6.pix 1 1 := by
  refine ⟨?_, by norm_num [imC6], by norm_num [imC6], by norm_num [round_eq],
    by norm_num [imC6]⟩
  have h0 : imC6.pix 0 0 = 0 := by norm_num [imC6]
  rw [h0]
  unfold extractNearest
  simp only []
  rw [if_pos (by norm_num)]
  norm_num
  unfold sampleNearest
  rw [if_neg (by norm_num [imC6])]
  simp only [imC6]
  rw [show pyInt (3/4 : ℚ) = 0 from by norm_num [pyInt]]
  norm_num [pyInt]

theorem interyList_length (de : ℚ) :
    ∀ (n : ℕ) (x : ℤ) (i : ℚ), (interyList de n x i).length = n := by
  intro n
  induction n with
  | zero => intro x i; rfl
  | succ m ih => intro x i; simp [interyList, ih]

theorem interyList_getD (de : ℚ) :
    ∀ (n : ℕ) (x : ℤ) (i : ℚ) (k : ℕ), k < n →
      (interyList de n x i).getD k (0, 0) = (x + k, i + de * k) := by
  intro n
  induction n with
  | zero => intro x i k hk; omega
  | succ m ih =>
    intro x i k hk
    match k with
    | 0 => simp [interyList]
    | j + 1 =>
      show (interyList de m (x + 1) (i + de)).getD j (0, 0) = _
      rw [ih (x + 1) (i + de) j (by omega)]
      simp only [Prod.mk.injEq]
      constructor <;> push_cast <;> ring

/-- C5 (amended): in `draw_line`'s main loop the `k`-th visited column is
`xpxl1 + 1 + k` with `intery = yend + de * (k+1)` (the accumulator
`intery += de` in closed form), and the pixel pair blended there carries
opacities `sqrt (1 - frac(intery))` and `sqrt (frac(intery))` — their
squares are the fractional weights the claim names, but the source
applies `math.sqrt` to them. -/
theorem c5_draw_line_main_amended :
    ∀ (y0 x0 y1 x1 : ℚ) (steep : Bool) (de : ℚ) (xp1 xp2 : ℤ) (yend : ℚ),
      lineParams y0 x0 y1 x1 = (steep, de, xp1, xp2, yend) →
      (∀ k : ℕ, k < (drawLineMain y0 x0 y1 x1).length →
        (drawLineMain y0 x0 y1 x1).getD k (0, 0) =
          (xp1 + 1 + (k : ℤ), yend + de * ((k : ℚ) + 1))) ∧
      (∀ ev : ℤ × ℚ, 0 ≤ ev.2 →
        ((mainBlendPair steep ev).1.2.2) ^ 2 =
          ((1 - (ev.2 - ((pyInt ev.2 : ℤ) : ℚ)) : ℚ) : ℝ) ∧
        ((mainBlendPair steep ev).2.2.2) ^ 2 =
          (((ev.2 - ((pyInt ev.2 : ℤ) : ℚ)) : ℚ) : ℝ) ∧
        0 ≤ (mainBlendPair steep ev).1.2.2 ∧
        0 ≤ (mainBlendPair steep ev).2.2.2) := by
  intro y0 x0 y1 x1 steep de xp1 xp2 yend hp
  constructor
  · intro k hk
    unfold drawLineMain at hk ⊢
    rw [hp] at hk ⊢
    dsimp only at hk ⊢
    rw [interyList_length] at hk
    rw [interyList_getD de _ _ _ k hk]
    simp only [Prod.mk.injEq, true_and]
    ring
  · intro ev hev
    have hfl : pyInt ev.2 = ⌊ev.2⌋ := if_pos hev
    have hfrac0 : (0 : ℚ) ≤ ev.2 - ((pyInt ev.2 : ℤ) : ℚ) := by
      rw [hfl]
      have := Int.fract_nonneg ev.2
      rw [Int.fract] at this
      exact this
    have hfrac1 : ev.2 - ((pyInt ev.2 : ℤ) : ℚ) ≤ 1 := by
      rw [hfl]
      have := Int.fract_lt_one ev.2
      rw [Int.fract] at this
      exact le_of_lt this
    have h1 : ((1 - (ev.2 - ((pyInt ev.2 : ℤ) : ℚ)) : ℚ) : ℝ) =
        1 - (((ev.2 - ((pyInt ev.2 : ℤ) : ℚ)) : ℚ) : ℝ) := by push_cast; ring
    have hr0 : (0 : ℝ) ≤ (((ev.2 - ((pyInt ev.2 : ℤ) : ℚ)) : ℚ) : ℝ) := by
      exact_mod_cast hfrac0
    have hr1 : (0 : ℝ) ≤ 1 - (((ev.2 - ((pyInt ev.2 : ℤ) : ℚ)) : ℚ) : ℝ) := by
      have : (((ev.2 - ((pyInt ev.2 : ℤ) : ℚ)) : ℚ) : ℝ) ≤ 1 := by exact_mod_cast hfrac1
      linarith
    cases steep <;>
      simp only [mainBlendPair, if_true, if_false, Bool.false_eq_true] <;>
      exact ⟨by rw [h1]; exact Real.sq_sqrt hr1, Real.sq_sqrt hr0,
        Real.sqrt_nonneg _, Real.sqrt_nonneg _⟩

/-- C5 (witness): the first main-loop event of the line (0,0)-(1,4) is
column 1 with `intery = 1/4`, and the second blend opacity squares to
the fraction 1/4. -/
theorem c5_draw_line_main_witness :
    (drawLineMain 0 0 1 4).getD 0 (0, 0) = (1, 1/4) ∧
    (mainBlendPair false (1, 1/4)).2.2.2 ^ 2 = ((1 : ℝ)/4) := by
  have hp : lineParams 0 0 1 4 = (false, 1/4, 0, 4, 0) := by
    norm_num [lineParams, lineNormQ, pyInt]
  have h := c5_draw_line_main_amended 0 0 1 4 false (1/4) 0 4 0 hp
  constructor
  · have hlen : (drawLineMain 0 0 1 4).length = 3 := by
      unfold drawLineMain
      rw [hp]
      dsimp only
      rw [interyList_length]
      decide
    have := h.1 0 (by rw [hlen]; omega)
    rw [this]
    norm_num [Prod.ext_iff]
  · have h2 := (h.2 (1, 1/4) (by norm_num)).2.1
    rw [h2]
    norm_num [pyInt]

/-- C5 (counterexample): for the line (0,0)-(1,4) the main loop's first
event is `(x, intery) = (1, 1/4)`, so the claim says the second pixel of
the pair is blended with opacity `frac(intery) = 1/4`; the code's
opacity there is `math.sqrt (1/4) = 1/2`, not `1/4`. -/
theorem c5_sqrt_opacity_counterexample :
    drawLineMain 0 0 1 4 = [(1, 1/4), (2, 1/2), (3, 3/4)] ∧
    (lineParams 0 0 1 4).1 = false ∧
    (mainBlendPair false (1, 1/4)).2.2.2 = 1/2 ∧ ((1 : ℝ)/2) ≠ ((1 : ℝ)/4) := by
  have hp : lineParams 0 0 1 4 = (false, 1/4, 0, 4, 0) := by
    norm_num [lineParams, lineNormQ, pyInt]
  refine ⟨?_, by rw [hp], ?_, by norm_num⟩
  · unfold drawLineMain
    rw [hp]
    norm_num [interyList]
  · simp only [mainBlendPair, Bool.false_eq_true, if_false]
    rw [show ((((1, (1 : ℚ)/4).2 - ((pyInt (1, (1 : ℚ)/4).2 : ℤ) : ℚ)) : ℚ) : ℝ) =
        ((1 : ℝ)/2) ^ 2 from by norm_num [pyInt]]
    exact Real.sqrt_sq (by norm_num)

/-- Equivalence lookup after the in-place update `equiv[j] = w`. -/
theorem eget_set (t : List ℕ) (j w i : ℕ) :
    eget (t.set j w) i = if j = i ∧ j < t.length then w else eget t i := by
  unfold eget
  rw [List.getD_eq_getElem?_getD, List.getD_eq_getElem?_getD, List.getElem?_set]
  by_cases h1 : j = i
  · subst h1
    by_cases h2 : j < t.length
    · simp [h2]
    · have hn : t[j]? = none := by
        rw [List.getElem?_eq_none_iff]
        omega
      simp [h2, hn]
  · simp [h1, fun h : j = i ∧ j < t.length => h1 h.1]

/-- The merge recording of `label_regions_slow` preserves the
equivalence-table invariant: both branches write a strictly smaller
label at a position at least as large. -/
theorem mergeStep_inv (t : List ℕ) (lv : ℕ) (rest : List ℕ) (h : equivInv t) :
    equivInv (mergeStep t lv rest) := by
  unfold mergeStep
  induction rest generalizing t with
  | nil => exact h
  | cons v vs ih =>
    rw [List.foldl_cons]
    apply ih
    split_ifs with h1 h2
    · intro i
      rw [eget_set]
      split_ifs with hc
      · have hv := h v
        omega
      · exact h i
    · intro i
      rw [eget_set]
      split_ifs with hc
      · omega
      · exact h i
    · exact h

/-- The merge recording preserves the table length. -/
theorem mergeStep_length (t : List ℕ) (lv : ℕ) (rest : List ℕ) :
    (mergeStep t lv rest).length = t.length := by
  unfold mergeStep
  induction rest generalizing t with
  | nil => rfl
  | cons v vs ih =>
    rw [List.foldl_cons, ih]
    split_ifs <;> simp [List.length_set]

/-- Appending the fresh label `last+1` to a table of length `last+1`
preserves the invariant (the new entry points to itself). -/
theorem equivInv_append (t : List ℕ) (last : ℕ)
    (h : equivInv t ∧ t.length = last + 1) :
    equivInv (t ++ [last + 1]) ∧ (t ++ [last + 1]).length = (last + 1) + 1 := by
  constructor
  · intro i
    unfold eget
    by_cases hi : i < t.length
    · rw [List.getD_append _ _ _ _ hi]
      exact h.1 i
    · rw [List.getD_append_right _ _ _ _ (by omega)]
      by_cases he : i = t.length
      · subst he
        simp [h.2]
      · have : 1 ≤ i - t.length := by omega
        rw [List.getD_eq_default _ _ (by simp; omega)]
  · simp [h.2]

/-- The base table `[0]` satisfies the invariant. -/
theorem equivInv_init : equivInv [0] := by
  intro i
  match i with
  | 0 => exact le_refl 0
  | n + 1 =>
    unfold eget
    rw [List.getD_eq_default _ _ (by simp)]

/-- One cell of the raster pass preserves the table invariant. -/
theorem labelCell_inv (con8 : Bool) (im : List (List ℚ)) (nx y x : ℕ)
    (prevRow currow : List ℕ) (last : ℕ) (equiv : List ℕ)
    (h : equivInv equiv ∧ equiv.length = last + 1) :
    equivInv (labelCell con8 im nx y x prevRow currow last equiv).2.2 ∧
      (labelCell con8 im nx y x prevRow currow last equiv).2.2.length =
        (labelCell con8 im nx y x prevRow currow last equiv).2.1 + 1 := by
  have hgen : ∀ ms : List ℕ, equivInv (labelFromMatches last equiv ms).2.2 ∧
      (labelFromMatches last equiv ms).2.2.length =
        (labelFromMatches last equiv ms).2.1 + 1 := by
    intro ms
    cases ms with
    | nil => exact equivInv_append equiv last h
    | cons lv rest =>
      exact ⟨mergeStep_inv _ _ _ h.1, by
        show (mergeStep equiv lv rest).length = last + 1
        rw [mergeStep_length]; exact h.2⟩
  exact hgen _

/-- The first-row pass establishes the invariant from the initial
single-entry table. -/
theorem firstRow_inv (im : List (List ℚ)) (nx : ℕ) :
    equivInv (firstRow im nx).2.2 ∧
      (firstRow im nx).2.2.length = (firstRow im nx).2.1 + 1 := by
  unfold firstRow
  apply List.foldlRecOn (motive := fun st : List ℕ × ℕ × List ℕ =>
    equivInv st.2.2 ∧ st.2.2.length = st.2.1 + 1)
  · exact ⟨equivInv_init, rfl⟩
  · intro st hst x _
    split_ifs
    · exact equivInv_append st.2.2 st.2.1 hst
    · exact hst

/-- The first-column pass preserves the invariant. -/
theorem firstCol_inv (im : List (List ℚ)) (ny : ℕ) (last : ℕ) (equiv : List ℕ)
    (h : equivInv equiv ∧ equiv.length = last + 1) :
    equivInv (firstCol im ny last equiv).2.2 ∧
      (firstCol im ny last equiv).2.2.length = (firstCol im ny last equiv).2.1 + 1 := by
  unfold firstCol
  apply List.foldlRecOn (motive := fun st : List ℕ × ℕ × List ℕ =>
    equivInv st.2.2 ∧ st.2.2.length = st.2.1 + 1)
  · exact h
  · intro st hst y _
    split_ifs
    · exact hst
    · exact equivInv_append st.2.2 st.2.1 hst

/-- The main raster pass preserves the invariant row by row. -/
theorem labelRow_inv (con8 : Bool) (im : List (List ℚ)) (nx y : ℕ)
    (prevRow : List ℕ) (col0y : ℕ) (last : ℕ) (equiv : List ℕ)
    (h : equivInv equiv ∧ equiv.length = last + 1) :
    equivInv (labelRow con8 im nx y prevRow col0y last equiv).2.2 ∧
      (labelRow con8 im nx y prevRow col0y last equiv).2.2.length =
        (labelRow con8 im nx y prevRow col0y last equiv).2.1 + 1 := by
  unfold labelRow
  apply List.foldlRecOn (motive := fun st : List ℕ × ℕ × List ℕ =>
    equivInv st.2.2 ∧ st.2.2.length = st.2.1 + 1)
  · exact h
  · intro st hst x _
    exact labelCell_inv con8 im nx y x prevRow st.1 st.2.1 st.2.2 hst

/-- The full raster pass of `label_regions_slow` maintains the
equivalence-table invariant throughout and at its end. -/
theorem labelPass_inv (im : List (List ℚ)) (ny nx : ℕ) (con8 : Bool) :
    equivInv (labelPass im ny nx con8).2.2 ∧
      (labelPass im ny nx con8).2.2.length = (labelPass im ny nx con8).2.1 + 1 := by
  unfold labelPass
  apply List.foldlRecOn (motive := fun st : List (List ℕ) × ℕ × List ℕ =>
    equivInv st.2.2 ∧ st.2.2.length = st.2.1 + 1)
  · exact firstCol_inv im ny _ _ (firstRow_inv im nx)
  · intro st hst y _
    exact labelRow_inv con8 im nx y _ _ st.2.1 st.2.2 hst

/-- Under the invariant, the chase `while equiv[v] != v` with fuel `f ≥ v`
reaches a canonical root: an entry that points to itself. -/
theorem chase_fix (t : List ℕ) (h : equivInv t) :
    ∀ (f v : ℕ), v ≤ f → eget t (chase t f v) = chase t f v := by
  intro f
  induction f with
  | zero =>
    intro v hv
    have hv0 : v = 0 := by omega
    subst hv0
    have := h 0
    show eget t 0 = 0
    omega
  | succ f ih =>
    intro v hv
    rw [chase]
    split_ifs with hr
    · exact hr
    · apply ih
      have := h v
      omega

theorem rootCount_succ (t : List ℕ) (k : ℕ) :
    rootCount t (k + 1) = rootCount t k + (if eget t k = k then 1 else 0) := by
  unfold rootCount
  rw [List.range_succ, List.filter_append, List.length_append]
  split_ifs with h <;> simp [h]

/-- The compaction loop of `label_regions_slow`: after scanning labels
`0..k-1` the remap list has length `k`, the root counter equals the
number of roots seen, and every root below `k` has been assigned its
dense label (its rank among roots). -/
theorem buildRemap_loop_spec (t : List ℕ) :
    ∀ (k : ℕ),
      (((List.range k).foldl (fun (st : List ℕ × ℕ) i =>
        if eget t i = i then (st.1 ++ [st.2], st.2 + 1)
        else (st.1 ++ [st.1.getD (chase t i i) 0], st.2)) ([], 0)).1.length = k) ∧
      (((List.range k).foldl (fun (st : List ℕ × ℕ) i =>
        if eget t i = i then (st.1 ++ [st.2], st.2 + 1)
        else (st.1 ++ [st.1.getD (chase t i i) 0], st.2)) ([], 0)).2 = rootCount t k) ∧
      (∀ i, i < k → eget t i = i →
        (((List.range k).foldl (fun (st : List ℕ × ℕ) i =>
          if eget t i = i then (st.1 ++ [st.2], st.2 + 1)
          else (st.1 ++ [st.1.getD (chase t i i) 0], st.2)) ([], 0)).1.getD i 0 =
          rootCount t i)) := by
  intro k
  induction k with
  | zero => exact ⟨rfl, rfl, fun i hi => absurd hi (by omega)⟩
  | succ m ih =>
    rw [List.range_succ, List.foldl_append, List.foldl_cons, List.foldl_nil]
    obtain ⟨ih1, ih2, ih3⟩ := ih
    split_ifs with hroot
    · refine ⟨?_, ?_, ?_⟩
      · rw [List.length_append, ih1, List.length_singleton]
      · rw [rootCount_succ, if_pos hroot, ih2]
      · intro i hi hri
        by_cases him : i < m
        · rw [List.getD_append _ _ _ _ (by omega)]
          exact ih3 i him hri
        · have hieq : i = m := by omega
          subst hieq
          rw [List.getD_append_right _ _ _ _ (by omega), ih1, Nat.sub_self]
          exact ih2
    · refine ⟨?_, ?_, ?_⟩
      · rw [List.length_append, ih1, List.length_singleton]
      · rw [rootCount_succ, if_neg hroot, ih2, Nat.add_zero]
      · intro i hi hri
        have him : i < m := by
          rcases Nat.lt_succ_iff_lt_or_eq.1 hi with hlt | heq
          · exact hlt
          · exact absurd (heq ▸ hri) hroot
        rw [List.getD_append _ _ _ _ (by omega)]
        exact ih3 i him hri

/-- The compaction pass assigns the dense labels `0..N-1` to the roots
in first-seen order and returns the number `N` of roots. -/
theorem buildRemap_props (t : List ℕ) :
    (buildRemap t).2 = rootCount t t.length ∧
      ∀ i, i < t.length → eget t i = i →
        (buildRemap t).1.getD i 0 = rootCount t i := by
  unfold buildRemap
  exact ⟨(buildRemap_loop_spec t t.length).2.1, (buildRemap_loop_spec t t.length).2.2⟩

/-- C7: throughout the raster pass and at its end the equivalence table
of `label_regions_slow` satisfies `equiv[i] <= i` (each merge branch
preserves it), so following the table from any label terminates — with
fuel no more than the label itself — at a canonical root whose entry
points to itself (no cycles other than self-loops); and the compaction
pass maps the roots, in first-seen order, onto the dense label space
`0..N-1` with `N` the number of roots. -/
theorem c7_equiv_table_invariant :
    (∀ (im : List (List ℚ)) (ny nx : ℕ) (con8 : Bool),
      equivInv (labelPass im ny nx con8).2.2) ∧
    (∀ (t : List ℕ) (lv : ℕ) (rest : List ℕ),
      equivInv t → equivInv (mergeStep t lv rest)) ∧
    (∀ (t : List ℕ), equivInv t → ∀ (f v : ℕ), v ≤ f →
      eget t (chase t f v) = chase t f v) ∧
    (∀ t : List ℕ, (buildRemap t).2 = rootCount t t.length ∧
      ∀ i, i < t.length → eget t i = i →
        (buildRemap t).1.getD i 0 = rootCount t i) :=
  ⟨fun im ny nx con8 => (labelPass_inv im ny nx con8).1,
   mergeStep_inv, chase_fix, buildRemap_props⟩

/-- C7 (witness): the invariant parts applied to the concrete table
`[0, 0, 1]` (where label 1 points to 0 and label 2 points to 1). -/
theorem c7_equiv_table_witness :
    equivInv (mergeStep [0, 0, 1] 0 [2]) ∧
    eget [0, 0, 1] (chase [0, 0, 1] 2 2) = chase [0, 0, 1] 2 2 := by
  have hinv : equivInv [0, 0, 1] := by
    intro i
    match i with
    | 0 => decide
    | 1 => decide
    | 2 => decide
    | n + 3 =>
      unfold eget
      rw [List.getD_eq_default _ _ (by simp)]
  exact ⟨c7_equiv_table_invariant.2.1 [0, 0, 1] 0 [2] hinv,
    c7_equiv_table_invariant.2.2.1 [0, 0, 1] hinv 2 2 (le_refl 2)⟩

/-- C3: evaluation of `label_regions_slow` at the two-region 4x4 input
`imC3`.  The relabelled buffer uses exactly the two labels {0, 1} (two
connected components), but the function returns `max(lab) = 1`, the
maximum label, not the region count 2. -/
theorem c3_label_regions_count_eval :
    label_regions_slow imC3 4 4 true =
      ([[0, 0, 1, 1], [0, 0, 1, 1], [0, 0, 1, 1], [0, 0, 1, 1]], 1) ∧
    ((label_regions_slow imC3 4 4 true).1.flatMap id).dedup = [0, 1] ∧
    (label_regions_slow imC3 4 4 true).2 ≠ 2 :=
  ⟨by decide, by decide, by decide⟩
